import Mathlib

/-!
# Verification of the `cgl` computation-graph library

Shallow embedding of `src/lib.rs` of the `cgl` crate: an arithmetic
computation graph over `u32` with inputs, constants, `add`/`mul` nodes,
hint nodes, a fixpoint fill algorithm and an equality-constraint checker.

Modelling conventions:
* `u32` values are `Nat`; the checked `u32` arithmetic of the default
  (debug/test) build profile is modelled explicitly: `a + b` / `a * b`
  panic when the mathematical result reaches `2 ^ 32`.
* A Rust panic (index out of bounds, `Option::unwrap` / `expect` on `None`,
  the explicit `panic!` in `fill_node`, arithmetic overflow under checked
  arithmetic) is modelled as `none` of an `Option`-valued result.
* The only operation closures the source ever stores are the `add` closure
  `|a, b| a + b`, the `mul` closure `|a, b| a * b`, and the closure built by
  `hint`, which captures a clone of the node vector (of length `cap`, taken
  when the hint is created) together with its dependency list and hint
  function; `Operation` is the corresponding tagged variant.
-/

/-- The operation closures installed by the source (`add`, `mul`, `hint`).
A hint closure ignores its two formal arguments and instead reads the
values of `depends_on` through the captured clone of the node vector,
whose length at capture time was `cap`. -/
inductive Operation where
  | addOp : Operation
  | mulOp : Operation
  | hintOp (cap : Nat) (depends_on : List Nat) (f : List Nat → Nat) : Operation

/-- A node in the computational graph (`struct Node`). -/
structure Node where
  value : Option Nat
  is_hint : Bool
  parents : List Nat
  operation : Option Operation

/-- The graph builder (`struct Builder`). -/
structure Builder where
  nodes : List Node
  constraints : List (Nat × Nat)
  node_counter : Nat

/-- `Builder::new()`. -/
def Builder.new : Builder :=
  { nodes := [], constraints := [], node_counter := 0 }

/-- `Builder::create_node`: pushes a node (with no operation installed yet),
increments the counter, returns the new id. -/
def Builder.create_node (b : Builder) (value : Option Nat) (is_hint : Bool)
    (parents : List Nat) : Builder × Nat :=
  ({ nodes := b.nodes ++ [⟨value, is_hint, parents, none⟩],
     constraints := b.constraints,
     node_counter := b.node_counter + 1 }, b.node_counter)

/-- `Builder::init`: an input node with no value. -/
def Builder.init (b : Builder) : Builder × Nat :=
  b.create_node none false []

/-- `Builder::constant`: a node resolved at creation. -/
def Builder.constant (b : Builder) (value : Nat) : Builder × Nat :=
  b.create_node (some value) false []

/-- `Builder::add_operation`: creates a node with parents `[a, c]` and
installs the operation closure (the source creates the node through
`create_node`, then immediately sets its `operation` field). -/
def Builder.add_operation (b : Builder) (a c : Nat) (op : Operation) : Builder × Nat :=
  ({ nodes := b.nodes ++ [⟨none, false, [a, c], some op⟩],
     constraints := b.constraints,
     node_counter := b.node_counter + 1 }, b.node_counter)

/-- `Builder::add`: installs the closure `|a, b| a + b`. No validation of
`a` or `c` is performed. -/
def Builder.add (b : Builder) (a c : Nat) : Builder × Nat :=
  b.add_operation a c .addOp

/-- `Builder::mul`: installs the closure `|a, b| a * b`. No validation of
`a` or `c` is performed. -/
def Builder.mul (b : Builder) (a c : Nat) : Builder × Nat :=
  b.add_operation a c .mulOp

/-- `Builder::assert_equal`: pushes the pair onto the constraint list,
unconditionally. -/
def Builder.assert_equal (b : Builder) (a c : Nat) : Builder :=
  { b with constraints := b.constraints ++ [(a, c)] }

/-- `Builder::hint`: creates a hint node whose parents are `depends_on` and
installs the hint closure; the closure captures `self.nodes.clone()`, taken
right after the hint node was pushed, so the captured vector has length
`b.nodes.length + 1`. -/
def Builder.hint (b : Builder) (f : List Nat → Nat) (depends_on : List Nat) : Builder × Nat :=
  ({ nodes := b.nodes ++
       [⟨none, true, depends_on, some (.hintOp (b.nodes.length + 1) depends_on f)⟩],
     constraints := b.constraints,
     node_counter := b.node_counter + 1 }, b.node_counter)

/-- The parent-value collection of `fill_node`:
`node.parents.iter().map(|&id| *self.nodes[id].value.borrow()).collect()`.
Indexing a nonexistent id panics (`none`). -/
def collectValues (nodes : List Node) : List Nat → Option (List (Option Nat))
  | [] => some []
  | id :: rest =>
    match nodes[id]? with
    | none => none
    | some nd => (collectValues nodes rest).map (fun vs => nd.value :: vs)

/-- The `parent_values.iter().all(|v| v.is_some())` test combined with the
subsequent `map(|v| v.unwrap())`: yields the unwrapped values exactly when
every entry is `Some`, and `none` (meaning: some parent is unresolved, the
node cannot be filled yet — not a panic) otherwise. -/
def unwrapAll : List (Option Nat) → Option (List Nat)
  | [] => some []
  | some v :: rest => (unwrapAll rest).map (fun vs => v :: vs)
  | none :: _ => none

/-- The body of the closure stored by `hint`: reads each dependency's value
through the captured clone of the node vector (length `cap`). An id beyond
the clone's length is an out-of-bounds panic, and an unresolved dependency
hits the `.expect("Parent value should be filled")` panic. -/
def hintReads (nodes : List Node) (cap : Nat) : List Nat → Option (List Nat)
  | [] => some []
  | id :: rest =>
    if id < cap then
      match nodes[id]? with
      | some nd =>
        match nd.value with
        | some v => (hintReads nodes cap rest).map (fun vs => v :: vs)
        | none => none
      | none => none
    else none

/-- Calling a stored operation closure with arguments `x`, `y`.
`addOp`/`mulOp` are the `u32` closures `|a, b| a + b` and `|a, b| a * b`:
under the default checked arithmetic they panic (`none`) when the result
reaches `2 ^ 32`. A hint closure ignores `x` and `y` and reads its
dependencies through the captured clone (`hintReads`). -/
def callOperation (nodes : List Node) (op : Operation) (x y : Nat) : Option Nat :=
  match op with
  | .addOp => if x + y < 2 ^ 32 then some (x + y) else none
  | .mulOp => if x * y < 2 ^ 32 then some (x * y) else none
  | .hintOp cap depends_on f => (hintReads nodes cap depends_on).map f

/-- `Builder::fill_node`: tries to resolve node `node_id`; returns the
updated node list and whether the node was filled. `none` is a panic
(out-of-bounds parent id, hint-closure panic, checked-arithmetic overflow,
or the explicit `panic!("Unsupported number of parent values")` when an
operation node has an arity other than 1 or 2). -/
def fill_node (nodes : List Node) (node_id : Nat) : Option (List Node × Bool) :=
  match nodes[node_id]? with
  | none => none
  | some node =>
    match node.value with
    | some _ => some (nodes, false)
    | none =>
      match collectValues nodes node.parents with
      | none => none
      | some parent_values =>
        match unwrapAll parent_values with
        | none => some (nodes, false)
        | some pv =>
          match node.operation with
          | none => some (nodes, false)
          | some op =>
            match pv with
            | [x, y] =>
              (callOperation nodes op x y).map
                (fun r => (nodes.set node_id { node with value := some r }, true))
            | [x] =>
              (callOperation nodes op x x).map
                (fun r => (nodes.set node_id { node with value := some r }, true))
            | _ => none

/-- One pass of the fixpoint loop: `for node_id in 0..self.nodes.len()`,
threading the node list and the `filled_any` flag. -/
def fill_pass_go (nodes : List Node) (filled_any : Bool) :
    List Nat → Option (List Node × Bool)
  | [] => some (nodes, filled_any)
  | i :: rest =>
    match fill_node nodes i with
    | none => none
    | some (nodes2, b) => fill_pass_go nodes2 (filled_any || b) rest

/-- One full pass over all nodes in id order. -/
def fill_pass (nodes : List Node) : Option (List Node × Bool) :=
  fill_pass_go nodes false (List.range nodes.length)

/-- The `loop { ... }` of `fill_nodes`, with explicit fuel. The source loop
is unbounded; `fill_loop_fuel_ge` below shows any fuel above the number of
unresolved nodes (in particular `nodes.length + 1`, the fuel `fill_nodes`
uses) yields the loop's true fixpoint, so fuel exhaustion (which returns
the current nodes) is unreachable at that fuel. -/
def fill_loop : Nat → List Node → Option (List Node)
  | 0, nodes => some nodes
  | fuel + 1, nodes =>
    match fill_pass nodes with
    | none => none
    | some (nodes2, filled_any) =>
      if filled_any then fill_loop fuel nodes2 else some nodes2

/-- The input-setting prologue of `fill_nodes`:
`for (node_id, value) in inputs.iter().enumerate() { if let Some(value) = value { ... } }`,
started at position `start`. A `Some` entry at a position with no node is an
out-of-bounds panic; `None` entries never index the node vector. -/
def set_inputs (nodes : List Node) : List (Option Nat) → Nat → Option (List Node)
  | [], _ => some nodes
  | none :: rest, start => set_inputs nodes rest (start + 1)
  | some v :: rest, start =>
    match nodes[start]? with
    | none => none
    | some node => set_inputs (nodes.set start { node with value := some v }) rest (start + 1)

/-- `Builder::fill_nodes`: writes the supplied inputs, then runs the
fixpoint loop. -/
def Builder.fill_nodes (b : Builder) (inputs : List (Option Nat)) : Option Builder :=
  match set_inputs b.nodes inputs 0 with
  | none => none
  | some nodes1 =>
    (fill_loop (nodes1.length + 1) nodes1).map (fun ns => { b with nodes := ns })

/-- The constraint scan of `check_constraints`. For each pair the source
indexes both nodes (panic if out of range), then prints both values with
`.unwrap()` (panic if either is unresolved), then compares; an unequal pair
returns `false` immediately. -/
def check_constraints_go (nodes : List Node) : List (Nat × Nat) → Option Bool
  | [] => some true
  | (a, c) :: rest =>
    match nodes[a]? with
    | none => none
    | some na =>
      match nodes[c]? with
      | none => none
      | some nc =>
        match na.value, nc.value with
        | some va, some vc =>
          if va = vc then check_constraints_go nodes rest else some false
        | _, _ => none

/-- `Builder::check_constraints`. -/
def Builder.check_constraints (b : Builder) : Option Bool :=
  check_constraints_go b.nodes b.constraints

/-- Number of unresolved nodes; the termination measure of the fixpoint
loop. -/
def ucount (nodes : List Node) : Nat :=
  nodes.countP (fun nd => nd.value.isNone)

/-- A constraint pair holds: both sides name existing nodes, both are
resolved, and the values are equal. -/
def constraintPasses (nodes : List Node) (pq : Nat × Nat) : Prop :=
  ∃ n1 n2 v, nodes[pq.1]? = some n1 ∧ nodes[pq.2]? = some n2 ∧
    n1.value = some v ∧ n2.value = some v

/-- Every resolved value of `old` is still resolved, with the same value,
in `new`. -/
def valuePreserved (old new : List Node) : Prop :=
  ∀ (j : Nat) (nd : Node) (v : Nat), old[j]? = some nd → nd.value = some v →
    ∃ nd', new[j]? = some nd' ∧ nd'.value = some v

/-! ## Concrete example graphs (from the repository's test suite and the
spec's scenarios), used to instantiate the claim theorems -/

/-- Scenario A / test `example_1`: `f(x) = x^2 + x + 5`. -/
def exSquare : Builder :=
  let p1 := Builder.new.init
  let p2 := p1.1.mul p1.2 p1.2
  let p3 := p2.1.add p2.2 p1.2
  let p4 := p3.1.constant 5
  let p5 := p4.1.add p3.2 p4.2
  p5.1

/-- `exSquare` after `fill_nodes [some 3]`. -/
def exSquareFilled : Builder :=
  { nodes := [⟨some 3, false, [], none⟩, ⟨some 9, false, [0, 0], some .mulOp⟩,
      ⟨some 12, false, [1, 0], some .addOp⟩, ⟨some 5, false, [], none⟩,
      ⟨some 17, false, [2, 3], some .addOp⟩],
    constraints := [], node_counter := 5 }

/-- An input node that never receives a value, a constant `1`, and the
constraint `0 = 1` between them (spec scenario E). -/
def exUnresolved : Builder :=
  let p1 := Builder.new.init
  let p2 := p1.1.constant 1
  p2.1.assert_equal p1.2 p2.2

/-- `exUnresolved` after `fill_nodes []` (node 0 stays unresolved). -/
def exUnresolvedFilled : Builder :=
  { nodes := [⟨none, false, [], none⟩, ⟨some 1, false, [], none⟩],
    constraints := [(0, 1)], node_counter := 2 }

/-- A single `Constant 5` node. -/
def exConstant : Builder := (Builder.new.constant 5).1

/-- `exConstant` after `fill_nodes [some 7]`: the constant is overwritten. -/
def exConstantFilled : Builder :=
  { nodes := [⟨some 7, false, [], none⟩], constraints := [], node_counter := 1 }

/-- A hint node with an empty dependency list. -/
def exHint0 : Builder := (Builder.new.hint (fun _ => 42) []).1

/-- `u32::MAX + 1`: an `Add` whose mathematical sum reaches `2 ^ 32`. -/
def exOverflow : Builder :=
  let p1 := Builder.new.constant 4294967295
  let p2 := p1.1.constant 1
  (p2.1.add p1.2 p2.2).1

/-- The hint function of test `example_2`: `|values| values[0] / 8`. -/
def exDiv8 : List Nat → Nat := fun l => l.headD 0 / 8

/-- A resolved node `16` and an unresolved arity-1 hint node over it. -/
def exHintNodes : List Node :=
  [⟨some 16, false, [], none⟩, ⟨none, true, [0], some (.hintOp 2 [0] exDiv8)⟩]

/-- Constants `3` and `4` feeding an unresolved `Add` node. -/
def exAddNodes : List Node :=
  [⟨some 3, false, [], none⟩, ⟨some 4, false, [], none⟩,
   ⟨none, false, [0, 1], some .addOp⟩]

/-- Constants `u32::MAX` and `1` feeding an unresolved `Add` node. -/
def exOvfNodes : List Node :=
  [⟨some 4294967295, false, [], none⟩, ⟨some 1, false, [], none⟩,
   ⟨none, false, [0, 1], some .addOp⟩]

/-- Two equal constants under an equality constraint. -/
def exEqPair : Builder :=
  ((Builder.new.constant 2).1.constant 2).1.assert_equal 0 1

/-! ## Basic list helpers -/

theorem list_set_self {α : Type} {l : List α} {i : Nat} {a : α}
    (h : l[i]? = some a) : l.set i a = l := by
  induction l generalizing i with
  | nil => simp at h
  | cons x t ih =>
    cases i with
    | zero => simp at h; simp [h]
    | succ j => simp at h; simp [List.set, ih h]

theorem countP_set_lt {α : Type} {p : α → Bool} {l : List α} {i : Nat} {a x : α}
    (h : l[i]? = some a) (hpa : p a = true) (hpx : p x = false) :
    (l.set i x).countP p < l.countP p := by
  induction l generalizing i with
  | nil => simp at h
  | cons y t ih =>
    cases i with
    | zero =>
      simp only [List.getElem?_cons_zero, Option.some.injEq] at h
      subst h
      show (x :: t).countP p < (y :: t).countP p
      have h2 : (x :: t).countP p = t.countP p := by simp [List.countP_cons, hpx]
      have h3 : (y :: t).countP p = t.countP p + 1 := by simp [List.countP_cons, hpa]
      omega
    | succ j =>
      simp only [List.getElem?_cons_succ] at h
      have := ih h
      show (y :: t.set j x).countP p < (y :: t).countP p
      simp only [List.countP_cons]
      omega

/-! ## Effects of `fill_node` -/

/-- Characterisation of a non-panicking `fill_node` call: the node list keeps
its length; a `false` result leaves it unchanged; a `true` result sets the
previously unresolved node `i` to some value. -/
theorem fill_node_spec {nodes : List Node} {i : Nat} {ns : List Node} {b : Bool}
    (h : fill_node nodes i = some (ns, b)) :
    ns.length = nodes.length ∧
    (b = false → ns = nodes) ∧
    (b = true → ∃ node r, nodes[i]? = some node ∧ node.value = none ∧
      ns = nodes.set i { node with value := some r }) := by
  unfold fill_node at h
  split at h
  · exact absurd h (by simp)
  next node hnode =>
    split at h
    · simp only [Option.some.injEq, Prod.mk.injEq] at h
      obtain ⟨rfl, rfl⟩ := h
      exact ⟨rfl, fun _ => rfl, fun hb => by cases hb⟩
    next hval =>
      split at h
      · exact absurd h (by simp)
      split at h
      · simp only [Option.some.injEq, Prod.mk.injEq] at h
        obtain ⟨rfl, rfl⟩ := h
        exact ⟨rfl, fun _ => rfl, fun hb => by cases hb⟩
      split at h
      · simp only [Option.some.injEq, Prod.mk.injEq] at h
        obtain ⟨rfl, rfl⟩ := h
        exact ⟨rfl, fun _ => rfl, fun hb => by cases hb⟩
      split at h
      · rw [Option.map_eq_some'] at h
        obtain ⟨r, _, hr⟩ := h
        cases hr
        exact ⟨List.length_set .., ⟨fun hb => Bool.noConfusion hb,
          fun _ => ⟨node, r, hnode, hval, rfl⟩⟩⟩
      · rw [Option.map_eq_some'] at h
        obtain ⟨r, _, hr⟩ := h
        cases hr
        exact ⟨List.length_set .., ⟨fun hb => Bool.noConfusion hb,
          fun _ => ⟨node, r, hnode, hval, rfl⟩⟩⟩
      · exact absurd h (by simp)

theorem fill_node_length {nodes : List Node} {i : Nat} {ns : List Node} {b : Bool}
    (h : fill_node nodes i = some (ns, b)) : ns.length = nodes.length :=
  (fill_node_spec h).1

theorem fill_node_false_eq {nodes : List Node} {i : Nat} {ns : List Node}
    (h : fill_node nodes i = some (ns, false)) : ns = nodes :=
  (fill_node_spec h).2.1 rfl

theorem fill_node_ucount {nodes : List Node} {i : Nat} {ns : List Node} {b : Bool}
    (h : fill_node nodes i = some (ns, b)) :
    ucount ns ≤ ucount nodes ∧ (b = true → ucount ns < ucount nodes) := by
  cases b with
  | false => rw [fill_node_false_eq h]; exact ⟨Nat.le_refl _, fun hb => by cases hb⟩
  | true =>
    obtain ⟨node, r, hnode, hval, rfl⟩ := (fill_node_spec h).2.2 rfl
    have hlt : ucount (nodes.set i { node with value := some r }) < ucount nodes :=
      countP_set_lt hnode (by simp [hval]) (by simp)
    exact ⟨Nat.le_of_lt hlt, fun _ => hlt⟩

/-- Resolved values survive a `fill_node` call. -/
theorem fill_node_preserves {nodes : List Node} {i : Nat} {ns : List Node} {b : Bool}
    (h : fill_node nodes i = some (ns, b)) {j : Nat} {nd : Node} {v : Nat}
    (hj : nodes[j]? = some nd) (hv : nd.value = some v) :
    ∃ nd', ns[j]? = some nd' ∧ nd'.value = some v := by
  cases b with
  | false => exact ⟨nd, by rw [fill_node_false_eq h]; exact hj, hv⟩
  | true =>
    obtain ⟨node, r, hnode, hval, rfl⟩ := (fill_node_spec h).2.2 rfl
    by_cases hij : i = j
    · subst hij
      rw [hnode] at hj
      cases hj
      rw [hval] at hv
      cases hv
    · exact ⟨nd, by rw [List.getElem?_set_ne hij]; exact hj, hv⟩

/-! ## Effects of a pass and of the fixpoint loop -/

theorem valuePreserved_refl (l : List Node) : valuePreserved l l :=
  fun _ nd v hj hv => ⟨nd, hj, hv⟩

theorem valuePreserved_trans {l1 l2 l3 : List Node}
    (h12 : valuePreserved l1 l2) (h23 : valuePreserved l2 l3) :
    valuePreserved l1 l3 := by
  intro j nd v hj hv
  obtain ⟨nd2, hj2, hv2⟩ := h12 j nd v hj hv
  exact h23 j nd2 v hj2 hv2

theorem fill_pass_go_length {idxs : List Nat} {nodes : List Node} {flag : Bool}
    {ns : List Node} {b : Bool}
    (h : fill_pass_go nodes flag idxs = some (ns, b)) : ns.length = nodes.length := by
  induction idxs generalizing nodes flag with
  | nil =>
    simp only [fill_pass_go, Option.some.injEq, Prod.mk.injEq] at h
    rw [h.1]
  | cons i rest ih =>
    unfold fill_pass_go at h
    split at h
    · exact absurd h (by simp)
    next nodes2 c heq =>
      rw [ih h, fill_node_length heq]

theorem fill_pass_go_false {idxs : List Nat} {nodes : List Node} {flag : Bool}
    {ns : List Node}
    (h : fill_pass_go nodes flag idxs = some (ns, false)) : ns = nodes ∧ flag = false := by
  induction idxs generalizing nodes flag with
  | nil =>
    simp only [fill_pass_go, Option.some.injEq, Prod.mk.injEq] at h
    exact ⟨h.1.symm, h.2⟩
  | cons i rest ih =>
    unfold fill_pass_go at h
    split at h
    · exact absurd h (by simp)
    next nodes2 c heq =>
      obtain ⟨rfl, hfc⟩ := ih h
      rcases Bool.or_eq_false_iff.mp hfc with ⟨hf, hc⟩
      subst hc
      subst hf
      exact ⟨fill_node_false_eq heq, rfl⟩

theorem fill_pass_go_ucount_le {idxs : List Nat} {nodes : List Node} {flag : Bool}
    {ns : List Node} {b : Bool}
    (h : fill_pass_go nodes flag idxs = some (ns, b)) : ucount ns ≤ ucount nodes := by
  induction idxs generalizing nodes flag with
  | nil =>
    simp only [fill_pass_go, Option.some.injEq, Prod.mk.injEq] at h
    rw [h.1]
  | cons i rest ih =>
    unfold fill_pass_go at h
    split at h
    · exact absurd h (by simp)
    next nodes2 c heq =>
      exact Nat.le_trans (ih h) (fill_node_ucount heq).1

theorem fill_pass_go_ucount_lt {idxs : List Nat} {nodes : List Node}
    {ns : List Node}
    (h : fill_pass_go nodes false idxs = some (ns, true)) : ucount ns < ucount nodes := by
  induction idxs generalizing nodes with
  | nil => simp [fill_pass_go] at h
  | cons i rest ih =>
    unfold fill_pass_go at h
    split at h
    · exact absurd h (by simp)
    next nodes2 c heq =>
      cases c with
      | false =>
        rw [fill_node_false_eq heq] at h
        exact ih (by simpa using h)
      | true =>
        exact Nat.lt_of_le_of_lt (fill_pass_go_ucount_le h)
          ((fill_node_ucount heq).2 rfl)

theorem fill_pass_go_preserves {idxs : List Nat} {nodes : List Node} {flag : Bool}
    {ns : List Node} {b : Bool}
    (h : fill_pass_go nodes flag idxs = some (ns, b)) : valuePreserved nodes ns := by
  induction idxs generalizing nodes flag with
  | nil =>
    simp only [fill_pass_go, Option.some.injEq, Prod.mk.injEq] at h
    rw [h.1]
    exact valuePreserved_refl ns
  | cons i rest ih =>
    unfold fill_pass_go at h
    split at h
    · exact absurd h (by simp)
    next nodes2 c heq =>
      have h1 : valuePreserved nodes nodes2 :=
        fun _ _ _ hj hv => fill_node_preserves heq hj hv
      exact valuePreserved_trans h1 (ih h)

theorem fill_pass_length {nodes ns : List Node} {b : Bool}
    (h : fill_pass nodes = some (ns, b)) : ns.length = nodes.length :=
  fill_pass_go_length h

theorem fill_pass_false {nodes ns : List Node}
    (h : fill_pass nodes = some (ns, false)) : ns = nodes :=
  (fill_pass_go_false h).1

/-- A pass that reports progress has strictly fewer unresolved nodes:
the measure that bounds the number of passes of the fixpoint loop. -/
theorem fill_pass_ucount_lt {nodes ns : List Node}
    (h : fill_pass nodes = some (ns, true)) : ucount ns < ucount nodes :=
  fill_pass_go_ucount_lt h

theorem fill_pass_preserves {nodes ns : List Node} {b : Bool}
    (h : fill_pass nodes = some (ns, b)) : valuePreserved nodes ns :=
  fill_pass_go_preserves h

theorem fill_loop_length {fuel : Nat} {nodes ns : List Node}
    (h : fill_loop fuel nodes = some ns) : ns.length = nodes.length := by
  induction fuel generalizing nodes with
  | zero =>
    simp only [fill_loop, Option.some.injEq] at h
    rw [h]
  | succ fuel ih =>
    unfold fill_loop at h
    split at h
    · exact absurd h (by simp)
    next nodes2 filled heq =>
      cases filled with
      | true => rw [ih h, fill_pass_length heq]
      | false =>
        simp only [Bool.false_eq_true, if_false, Option.some.injEq] at h
        rw [← h, fill_pass_length heq]

theorem fill_loop_preserves {fuel : Nat} {nodes ns : List Node}
    (h : fill_loop fuel nodes = some ns) : valuePreserved nodes ns := by
  induction fuel generalizing nodes with
  | zero =>
    simp only [fill_loop, Option.some.injEq] at h
    rw [h]
    exact valuePreserved_refl ns
  | succ fuel ih =>
    unfold fill_loop at h
    split at h
    · exact absurd h (by simp)
    next nodes2 filled heq =>
      cases filled with
      | true => exact valuePreserved_trans (fill_pass_preserves heq) (ih h)
      | false =>
        simp only [Bool.false_eq_true, if_false, Option.some.injEq] at h
        rw [← h]
        exact fill_pass_preserves heq

/-- Fuel irrelevance: any two fuels above the number of unresolved nodes
make the loop return the same result — the source's unbounded loop
terminates within `ucount nodes + 1` passes. -/
theorem fill_loop_fuel_congr {fuel : Nat} :
    ∀ {nodes : List Node} {fuel' : Nat}, ucount nodes < fuel → ucount nodes < fuel' →
      fill_loop fuel nodes = fill_loop fuel' nodes := by
  induction fuel with
  | zero => intro nodes fuel' h _; exact absurd h (Nat.not_lt_zero _)
  | succ fuel ih =>
    intro nodes fuel' h h'
    cases fuel' with
    | zero => exact absurd h' (Nat.not_lt_zero _)
    | succ g =>
      show fill_loop (fuel + 1) nodes = fill_loop (g + 1) nodes
      unfold fill_loop
      cases heq : fill_pass nodes with
      | none => rfl
      | some p =>
        obtain ⟨nodes2, filled⟩ := p
        cases filled with
        | false => rfl
        | true =>
          simp only [if_true]
          have hlt := fill_pass_ucount_lt heq
          exact ih (Nat.lt_of_lt_of_le hlt (Nat.lt_succ_iff.mp h))
            (Nat.lt_of_lt_of_le hlt (Nat.lt_succ_iff.mp h'))

/-- With enough fuel the loop's result is a genuine fixpoint: one more pass
over it fills nothing. -/
theorem fill_loop_fixpoint {fuel : Nat} :
    ∀ {nodes ns : List Node}, ucount nodes < fuel → fill_loop fuel nodes = some ns →
      fill_pass ns = some (ns, false) := by
  induction fuel with
  | zero => intro nodes ns h _; exact absurd h (Nat.not_lt_zero _)
  | succ fuel ih =>
    intro nodes ns h hloop
    unfold fill_loop at hloop
    split at hloop
    · exact absurd hloop (by simp)
    next nodes2 filled heq =>
      cases filled with
      | false =>
        simp only [Bool.false_eq_true, if_false, Option.some.injEq] at hloop
        subst hloop
        have h2 : nodes2 = nodes := fill_pass_false heq
        subst h2
        exact heq
      | true =>
        simp only [if_true] at hloop
        have hlt := fill_pass_ucount_lt heq
        exact ih (Nat.lt_of_lt_of_le hlt (Nat.lt_succ_iff.mp h)) hloop

theorem ucount_le_length (nodes : List Node) : ucount nodes ≤ nodes.length := by
  unfold ucount
  exact List.countP_le_length _

/-! ## Effects of the input-writing prologue -/

theorem set_inputs_length {inputs : List (Option Nat)} {nodes : List Node} {start : Nat}
    {ns : List Node} (h : set_inputs nodes inputs start = some ns) :
    ns.length = nodes.length := by
  induction inputs generalizing nodes start with
  | nil =>
    simp only [set_inputs, Option.some.injEq] at h
    rw [← h]
  | cons hd rest ih =>
    cases hd with
    | none => exact ih h
    | some v =>
      unfold set_inputs at h
      split at h
      · exact absurd h (by simp)
      next node heq => rw [ih h, List.length_set]

/-- A `Some` entry whose position has no node makes the prologue (and hence
`fill_nodes`) panic: the source indexes `self.nodes[node_id]` out of
bounds. -/
theorem set_inputs_oob {inputs : List (Option Nat)} {nodes : List Node} {start k : Nat}
    {v : Nat} (hk : inputs[k]? = some (some v)) (hlen : nodes.length ≤ start + k) :
    set_inputs nodes inputs start = none := by
  induction inputs generalizing nodes start k with
  | nil => simp at hk
  | cons hd rest ih =>
    cases k with
    | zero =>
      simp only [List.getElem?_cons_zero, Option.some.injEq] at hk
      subst hk
      unfold set_inputs
      split
      · rfl
      next node heq =>
        rw [List.getElem?_eq_none (by omega)] at heq
        cases heq
    | succ j =>
      simp only [List.getElem?_cons_succ] at hk
      cases hd with
      | none => exact ih hk (by omega)
      | some w =>
        unfold set_inputs
        split
        · rfl
        next node heq =>
          exact ih hk (by rw [List.length_set]; omega)

/-- The prologue never touches positions below `start`. -/
theorem set_inputs_lower {inputs : List (Option Nat)} {nodes : List Node} {start : Nat}
    {ns : List Node} (h : set_inputs nodes inputs start = some ns)
    {j : Nat} (hj : j < start) : ns[j]? = nodes[j]? := by
  induction inputs generalizing nodes start with
  | nil =>
    simp only [set_inputs, Option.some.injEq] at h
    rw [← h]
  | cons hd rest ih =>
    cases hd with
    | none => exact ih h (by omega)
    | some v =>
      unfold set_inputs at h
      split at h
      · exact absurd h (by simp)
      next node heq =>
        rw [ih h (by omega), List.getElem?_set_ne (by omega)]

/-- After the prologue, position `start + k` holds the `Some` value that
`inputs` supplies at index `k` — whatever kind of node sits there. -/
theorem set_inputs_final {inputs : List (Option Nat)} {nodes : List Node} {start k : Nat}
    {ns : List Node} {v : Nat} (h : set_inputs nodes inputs start = some ns)
    (hk : inputs[k]? = some (some v)) :
    ∃ nd, ns[start + k]? = some nd ∧ nd.value = some v := by
  induction inputs generalizing nodes start k with
  | nil => simp at hk
  | cons hd rest ih =>
    cases k with
    | zero =>
      simp only [List.getElem?_cons_zero, Option.some.injEq] at hk
      subst hk
      unfold set_inputs at h
      split at h
      · exact absurd h (by simp)
      next node heq =>
        have hlt : start < nodes.length := by
          by_contra hc
          rw [List.getElem?_eq_none (by omega)] at heq
          cases heq
        refine ⟨{ node with value := some v }, ?_, rfl⟩
        rw [Nat.add_zero, set_inputs_lower h (by omega),
          List.getElem?_set_self (by omega)]
    | succ j =>
      simp only [List.getElem?_cons_succ] at hk
      cases hd with
      | none =>
        have h2 := ih h hk
        have e : start + 1 + j = start + (j + 1) := by omega
        rwa [e] at h2
      | some w =>
        unfold set_inputs at h
        split at h
        · exact absurd h (by simp)
        next node heq =>
          have h2 := ih h hk
          have e : start + 1 + j = start + (j + 1) := by omega
          rwa [e] at h2

/-- Re-writing inputs that are already in place is the identity: the
prologue of a second `fill_nodes` call with the same inputs does not change
the node list. -/
theorem set_inputs_id {inputs : List (Option Nat)} {nodes : List Node} {start : Nat}
    (h : ∀ (k v : Nat), inputs[k]? = some (some v) →
      ∃ nd, nodes[start + k]? = some nd ∧ nd.value = some v) :
    set_inputs nodes inputs start = some nodes := by
  induction inputs generalizing nodes start with
  | nil => rfl
  | cons hd rest ih =>
    cases hd with
    | none =>
      show set_inputs nodes rest (start + 1) = some nodes
      refine ih fun k v hk => ?_
      have h2 := h (k + 1) v (by simpa using hk)
      have e : start + 1 + k = start + (k + 1) := by omega
      rwa [← e] at h2
    | some v =>
      obtain ⟨nd, hnd, hv⟩ := h 0 v (by simp)
      rw [Nat.add_zero] at hnd
      show (match nodes[start]? with
        | none => none
        | some node =>
          set_inputs (nodes.set start { node with value := some v }) rest (start + 1)) =
        some nodes
      rw [hnd]
      show set_inputs (nodes.set start { nd with value := some v }) rest (start + 1) =
        some nodes
      have hsame : { nd with value := some v } = nd := by
        cases nd
        simp_all
      rw [hsame, list_set_self hnd]
      refine ih fun k w hk => ?_
      have h2 := h (k + 1) w (by simpa using hk)
      have e : start + 1 + k = start + (k + 1) := by omega
      rwa [← e] at h2

/-! ## The constraint scan -/

/-- Reduction of the scan over one constraint whose sides exist and are
resolved. -/
theorem check_go_cons {nodes : List Node} {a c : Nat} {rest : List (Nat × Nat)}
    {n1 n2 : Node} {v1 v2 : Nat}
    (h1 : nodes[a]? = some n1) (h2 : nodes[c]? = some n2)
    (hv1 : n1.value = some v1) (hv2 : n2.value = some v2) :
    check_constraints_go nodes ((a, c) :: rest) =
      if v1 = v2 then check_constraints_go nodes rest else some false := by
  simp only [check_constraints_go, h1, h2, hv1, hv2]

/-- The scan walks past a prefix of passing constraints. -/
theorem check_go_skip {nodes : List Node} {pre rest : List (Nat × Nat)}
    (hpre : ∀ pq ∈ pre, constraintPasses nodes pq) :
    check_constraints_go nodes (pre ++ rest) = check_constraints_go nodes rest := by
  induction pre with
  | nil => rfl
  | cons hd tl ih =>
    obtain ⟨a, c⟩ := hd
    obtain ⟨n1, n2, v, h1, h2, hv1, hv2⟩ := hpre (a, c) (List.mem_cons_self _ _)
    show check_constraints_go nodes ((a, c) :: (tl ++ rest)) = check_constraints_go nodes rest
    rw [check_go_cons h1 h2 hv1 hv2, if_pos rfl]
    exact ih fun pq hpq => hpre pq (List.mem_cons_of_mem _ hpq)

/-- Correctness of the scan when every constraint's sides exist and are
resolved: it returns `some true` exactly when all constraints pass and
`some false` exactly when one fails. -/
theorem check_go_correct {nodes : List Node} {cs : List (Nat × Nat)}
    (hres : ∀ pq ∈ cs, ∃ n1 n2 v1 v2, nodes[pq.1]? = some n1 ∧ nodes[pq.2]? = some n2 ∧
      n1.value = some v1 ∧ n2.value = some v2) :
    (check_constraints_go nodes cs = some true ↔ ∀ pq ∈ cs, constraintPasses nodes pq) ∧
    (check_constraints_go nodes cs = some false ↔ ¬ ∀ pq ∈ cs, constraintPasses nodes pq) := by
  induction cs with
  | nil =>
    constructor
    · simp [check_constraints_go]
    · simp [check_constraints_go]
  | cons hd tl ih =>
    obtain ⟨a, c⟩ := hd
    obtain ⟨n1, n2, v1, v2, h1, h2, hv1, hv2⟩ := hres (a, c) (List.mem_cons_self _ _)
    have ihtl := ih fun pq hpq => hres pq (List.mem_cons_of_mem _ hpq)
    have hred : check_constraints_go nodes ((a, c) :: tl) =
        if v1 = v2 then check_constraints_go nodes tl else some false :=
      check_go_cons h1 h2 hv1 hv2
    by_cases hv : v1 = v2
    · subst hv
      rw [hred, if_pos rfl]
      have hpass : constraintPasses nodes (a, c) := ⟨n1, n2, v1, h1, h2, hv1, hv2⟩
      constructor
      · rw [ihtl.1, List.forall_mem_cons]
        exact ⟨fun h => ⟨hpass, h⟩, fun h => h.2⟩
      · rw [ihtl.2, List.forall_mem_cons]
        exact ⟨fun h hall => h hall.2, fun h hall => h ⟨hpass, hall⟩⟩
    · rw [hred, if_neg hv]
      have hfail : ¬ constraintPasses nodes (a, c) := by
        rintro ⟨m1, m2, w, g1, g2, gw1, gw2⟩
        rw [h1] at g1
        rw [h2] at g2
        cases g1
        cases g2
        rw [hv1] at gw1
        rw [hv2] at gw2
        cases gw1
        cases gw2
        exact hv rfl
      constructor
      · constructor
        · intro h; exact absurd h (by simp)
        · intro h
          exact absurd (h (a, c) (List.mem_cons_self _ _)) hfail
      · constructor
        · intro _
          rw [List.forall_mem_cons]
          rintro ⟨hpass, _⟩
          exact hfail hpass
        · intro _; rfl

/-! ## The hint closure -/

theorem unwrapAll_map_some (l : List Nat) : unwrapAll (l.map some) = some l := by
  induction l with
  | nil => rfl
  | cons x t ih => simp [unwrapAll, ih]

/-- A successful hint-closure read implies the `fill_node` parent-value
collection succeeds with exactly the same values. -/
theorem hintReads_collect {nodes : List Node} {cap : Nat} {deps : List Nat} {vs : List Nat}
    (h : hintReads nodes cap deps = some vs) :
    collectValues nodes deps = some (vs.map some) := by
  induction deps generalizing vs with
  | nil =>
    simp only [hintReads, Option.some.injEq] at h
    subst h
    rfl
  | cons id rest ih =>
    unfold hintReads at h
    split at h
    · split at h
      next nd hnd =>
        split at h
        next w hw =>
          rw [Option.map_eq_some'] at h
          obtain ⟨vs', hvs', rfl⟩ := h
          show (match nodes[id]? with
            | none => none
            | some nd => (collectValues nodes rest).map (fun vs => nd.value :: vs)) =
            some ((w :: vs').map some)
          rw [hnd, ih hvs']
          simp [hw]
        · exact absurd h (by simp)
      · exact absurd h (by simp)
    · exact absurd h (by simp)

theorem hintReads_length {nodes : List Node} {cap : Nat} {deps : List Nat} {vs : List Nat}
    (h : hintReads nodes cap deps = some vs) : vs.length = deps.length := by
  induction deps generalizing vs with
  | nil =>
    simp only [hintReads, Option.some.injEq] at h
    subst h
    rfl
  | cons id rest ih =>
    unfold hintReads at h
    split at h
    · split at h
      · split at h
        · rw [Option.map_eq_some'] at h
          obtain ⟨vs', hvs', rfl⟩ := h
          simp [ih hvs']
        · exact absurd h (by simp)
      · exact absurd h (by simp)
    · exact absurd h (by simp)

/-! ## Decomposition of `fill_nodes` -/

theorem fill_nodes_some {b : Builder} {inputs : List (Option Nat)} {b' : Builder}
    (h : b.fill_nodes inputs = some b') :
    ∃ ns1, set_inputs b.nodes inputs 0 = some ns1 ∧
      fill_loop (ns1.length + 1) ns1 = some b'.nodes ∧
      b'.constraints = b.constraints := by
  unfold Builder.fill_nodes at h
  split at h
  · exact absurd h (by simp)
  next ns1 hset =>
    rw [Option.map_eq_some'] at h
    obtain ⟨ns2, hl, rfl⟩ := h
    exact ⟨ns1, hset, hl, rfl⟩

/-! ## The claims -/

/-- C1, counterexample to the claim as stated: on the graph `exUnresolved`
(an `Input` with no supplied value, a `Constant 1`, and the constraint
`(0, 1)`), `fill_nodes []` succeeds but `check_constraints` panics
(`none`, from the `unwrap` inside its `println!`) instead of returning an
`UnresolvedNode` error — no such error value exists in the code. -/
theorem C1_counterexample :
    (exUnresolved.fill_nodes []).map Builder.check_constraints = some none := rfl

/-- C1, amended: if the constraint scan reaches a recorded pair `(a, c)`
whose sides both exist but at least one is unresolved, `check_constraints`
panics (modelled as `none`); it never reports which node was unresolved. -/
theorem C1_unresolved_panics {b : Builder} {pre rest : List (Nat × Nat)} {a c : Nat}
    {na nc : Node} (hcs : b.constraints = pre ++ (a, c) :: rest)
    (hpre : ∀ pq ∈ pre, constraintPasses b.nodes pq)
    (h1 : b.nodes[a]? = some na) (h2 : b.nodes[c]? = some nc)
    (hunres : na.value = none ∨ nc.value = none) :
    b.check_constraints = none := by
  unfold Builder.check_constraints
  rw [hcs, check_go_skip hpre]
  rcases hunres with h | h
  · cases hnc : nc.value <;> simp only [check_constraints_go, h1, h2, h, hnc]
  · cases hna : na.value <;> simp only [check_constraints_go, h1, h2, h, hna]

/-- C1, witness for the amended theorem. -/
theorem C1_witness : exUnresolvedFilled.check_constraints = none := by
  have hcs : exUnresolvedFilled.constraints = [] ++ (0, 1) :: [] := rfl
  have h1 : exUnresolvedFilled.nodes[0]? = some ⟨none, false, [], none⟩ := rfl
  have h2 : exUnresolvedFilled.nodes[1]? = some ⟨some 1, false, [], none⟩ := rfl
  exact C1_unresolved_panics hcs (by simp) h1 h2 (Or.inl rfl)

/-- C2, counterexample to the claim as stated: `fill_nodes [some 7]` on a
graph whose node 0 is `Constant 5` overwrites the constant with `7` — the
prologue of `fill_nodes` writes every supplied value unconditionally,
it does not check that the target is an `Input` node. -/
theorem C2_counterexample :
    (exConstant.fill_nodes [some 7]).map (fun b => b.nodes.map (fun nd => nd.value)) =
      some [some 7] := rfl

/-- C2, amended: a successful `fill_nodes` writes every `Some` entry of
`inputs` into the node at the same position, whatever that node's kind;
the written value is still in place when `fill_nodes` returns. -/
theorem C2_inputs_written {b : Builder} {inputs : List (Option Nat)} {b' : Builder}
    {k v : Nat} (h : b.fill_nodes inputs = some b')
    (hk : inputs[k]? = some (some v)) :
    (b'.nodes[k]?).map (fun nd => nd.value) = some (some v) := by
  obtain ⟨ns1, hset, hloop, _⟩ := fill_nodes_some h
  obtain ⟨nd, hnd, hv⟩ := set_inputs_final hset hk
  rw [Nat.zero_add] at hnd
  obtain ⟨nd', hnd', hv'⟩ := fill_loop_preserves hloop k nd v hnd hv
  simp only [hnd', Option.map_some', hv']

/-- C2, witness for the amended theorem. -/
theorem C2_witness :
    (exConstantFilled.nodes[0]?).map (fun nd => nd.value) = some (some 7) :=
  C2_inputs_written
    (rfl : exConstant.fill_nodes [some 7] = some exConstantFilled)
    (rfl : [some 7][0]? = some (some 7))

/-- C3, counterexample to the claim as stated: on an empty graph,
`add(5, 7)` — both ids nonexistent — does not fail with `InvalidReference`;
it returns the fresh `NodeId` `0` and records the dangling parents. -/
theorem C3_counterexample :
    (Builder.new.add 5 7).2 = 0 ∧
    (Builder.new.add 5 7).1.nodes.map (fun nd => nd.parents) = [[5, 7]] :=
  ⟨rfl, rfl⟩

/-- C3, amended: `add` and `mul` perform no validation whatsoever: for any
arguments they succeed, returning the next `NodeId` and appending one node.
(A dangling parent id only causes an out-of-bounds panic later, inside
`fill_nodes`, when the node's parent values are read.) -/
theorem C3_no_validation (b : Builder) (a c : Nat) :
    (b.add a c).2 = b.node_counter ∧
    (b.add a c).1.nodes.length = b.nodes.length + 1 ∧
    (b.mul a c).2 = b.node_counter ∧
    (b.mul a c).1.nodes.length = b.nodes.length + 1 := by
  refine ⟨rfl, ?_, rfl, ?_⟩ <;>
    simp [Builder.add, Builder.mul, Builder.add_operation]

/-- C4, counterexample to the claim as stated: a `Hint` node with an empty
dependency list (all dependencies trivially resolved) is not filled with
`f []`; `fill_node` hits `panic!("Unsupported number of parent values")`,
so `fill_nodes` panics (`none`). -/
theorem C4_counterexample : exHint0.fill_nodes [] = none := rfl

/-- C4, amended: only for a `Hint` node with exactly one or two
dependencies does the claim hold: once its dependencies (all below the
captured clone's length) are resolved to the list `vs`, `fill_node`
resolves the node to `f vs`. Arities other than 1 and 2 panic. -/
theorem C4_hint_fill {nodes : List Node} {i cap : Nat} {deps : List Nat}
    {f : List Nat → Nat} {nd : Node} {vs : List Nat}
    (hnd : nodes[i]? = some nd) (hval : nd.value = none)
    (hpar : nd.parents = deps) (hop : nd.operation = some (.hintOp cap deps f))
    (harity : deps.length = 1 ∨ deps.length = 2)
    (hreads : hintReads nodes cap deps = some vs) :
    fill_node nodes i = some (nodes.set i { nd with value := some (f vs) }, true) := by
  have hcol : collectValues nodes deps = some (vs.map some) := hintReads_collect hreads
  have hunw : unwrapAll (vs.map some) = some vs := unwrapAll_map_some vs
  have hlen : vs.length = deps.length := hintReads_length hreads
  have hcall : ∀ x y : Nat, callOperation nodes (.hintOp cap deps f) x y = some (f vs) := by
    intro x y
    simp [callOperation, hreads]
  rcases harity with h1 | h1
  · have hl : vs.length = 1 := by rw [hlen, h1]
    obtain ⟨x, rfl⟩ := List.length_eq_one.mp hl
    simp only [List.map_cons, List.map_nil] at hcol hunw
    simp only [fill_node, hnd, hval, hpar, hcol, hunw, hop, hcall, Option.map_some']
  · have hl : vs.length = 2 := by rw [hlen, h1]
    obtain ⟨x, y, rfl⟩ := List.length_eq_two.mp hl
    simp only [List.map_cons, List.map_nil] at hcol hunw
    simp only [fill_node, hnd, hval, hpar, hcol, hunw, hop, hcall, Option.map_some']

/-- C4, witness for the amended theorem: the arity-1 division hint of test
`example_2`. -/
theorem C4_witness :
    fill_node exHintNodes 1 =
      some (exHintNodes.set 1 ⟨some (exDiv8 [16]), true, [0], some (.hintOp 2 [0] exDiv8)⟩,
        true) := by
  have hnd : exHintNodes[1]? = some ⟨none, true, [0], some (.hintOp 2 [0] exDiv8)⟩ := rfl
  have hreads : hintReads exHintNodes 2 [0] = some [16] := rfl
  exact C4_hint_fill hnd rfl rfl rfl (Or.inl rfl) hreads

/-- C5, counterexample to the claim as stated: filling the graph
`Constant u32::MAX`, `Constant 1`, `Add` does not wrap to `0`; under the
checked `u32` arithmetic of the default (debug/test) build profile the `+`
inside the add closure panics, so `fill_nodes` panics (`none`). -/
theorem C5_counterexample : exOverflow.fill_nodes [] = none := rfl

/-- C5, amended: an `Add`/`Mul` node whose parents are resolved to `x` and
`y` is filled with the exact sum/product when it is below `2 ^ 32`; when
the mathematical result reaches `2 ^ 32` the checked arithmetic of the
default build profile panics during fill (it wraps only when overflow
checks are disabled, e.g. release builds). -/
theorem C5_checked_arith {nodes : List Node} {i : Nat} {nd na nc : Node}
    {a c x y : Nat}
    (hnd : nodes[i]? = some nd) (hval : nd.value = none) (hpar : nd.parents = [a, c])
    (ha : nodes[a]? = some na) (hx : na.value = some x)
    (hc : nodes[c]? = some nc) (hy : nc.value = some y) :
    (nd.operation = some .addOp →
      (x + y < 2 ^ 32 →
        fill_node nodes i = some (nodes.set i { nd with value := some (x + y) }, true)) ∧
      (2 ^ 32 ≤ x + y → fill_node nodes i = none)) ∧
    (nd.operation = some .mulOp →
      (x * y < 2 ^ 32 →
        fill_node nodes i = some (nodes.set i { nd with value := some (x * y) }, true)) ∧
      (2 ^ 32 ≤ x * y → fill_node nodes i = none)) := by
  have hcol : collectValues nodes [a, c] = some [some x, some y] := by
    simp [collectValues, ha, hc, hx, hy]
  refine ⟨fun hop => ⟨fun hlt => ?_, fun hge => ?_⟩,
          fun hop => ⟨fun hlt => ?_, fun hge => ?_⟩⟩
  · have hlt2 : x + y < 4294967296 := by simpa using hlt
    simp [fill_node, hnd, hval, hpar, hcol, unwrapAll, hop, callOperation, hlt2]
  · have hge2 : ¬ x + y < 4294967296 := by simp; simpa using hge
    simp [fill_node, hnd, hval, hpar, hcol, unwrapAll, hop, callOperation, hge2]
  · have hlt2 : x * y < 4294967296 := by simpa using hlt
    simp [fill_node, hnd, hval, hpar, hcol, unwrapAll, hop, callOperation, hlt2]
  · have hge2 : ¬ x * y < 4294967296 := by simp; simpa using hge
    simp [fill_node, hnd, hval, hpar, hcol, unwrapAll, hop, callOperation, hge2]

/-- C5, witness for the amended theorem: `3 + 4` is filled exactly;
`u32::MAX + 1` panics. -/
theorem C5_witness :
    fill_node exAddNodes 2 =
      some (exAddNodes.set 2 ⟨some (3 + 4), false, [0, 1], some .addOp⟩, true) ∧
    fill_node exOvfNodes 2 = none :=
  ⟨((C5_checked_arith rfl rfl rfl rfl rfl rfl rfl).1 rfl).1 (by decide),
   ((C5_checked_arith rfl rfl rfl rfl rfl rfl rfl).1 rfl).2 (by decide)⟩

/-- C6: calling `fill_nodes` a second time with the same inputs changes
nothing — the second call returns the very same builder (every resolved
value in particular stays put). -/
theorem C6_fill_idempotent {b : Builder} {inputs : List (Option Nat)} {b' : Builder}
    (h : b.fill_nodes inputs = some b') : b'.fill_nodes inputs = some b' := by
  obtain ⟨ns1, hset, hloop, _⟩ := fill_nodes_some h
  have hulen : ucount ns1 < ns1.length + 1 := Nat.lt_succ_of_le (ucount_le_length ns1)
  have hfix : fill_pass b'.nodes = some (b'.nodes, false) := fill_loop_fixpoint hulen hloop
  have hset2 : set_inputs b'.nodes inputs 0 = some b'.nodes := by
    refine set_inputs_id fun k v hk => ?_
    obtain ⟨nd, hnd, hv⟩ := set_inputs_final hset hk
    rw [Nat.zero_add] at hnd
    obtain ⟨nd', hnd', hv'⟩ := fill_loop_preserves hloop k nd v hnd hv
    rw [Nat.zero_add]
    exact ⟨nd', hnd', hv'⟩
  have hloops : fill_loop (b'.nodes.length + 1) b'.nodes = some b'.nodes := by
    unfold fill_loop
    rw [hfix]
    rfl
  unfold Builder.fill_nodes
  rw [hset2]
  show (fill_loop (b'.nodes.length + 1) b'.nodes).map
      (fun ns => { b' with nodes := ns }) = some b'
  rw [hloops]
  rfl

/-- C6, witness: re-filling scenario A with `x = 3` returns the same
builder. -/
theorem C6_witness : exSquareFilled.fill_nodes [some 3] = some exSquareFilled :=
  C6_fill_idempotent (rfl : exSquare.fill_nodes [some 3] = some exSquareFilled)

/-- C7: the fixpoint loop terminates — a pass that reports progress
strictly decreases the number of unresolved nodes, so `nodes.length + 1`
passes (the fuel `fill_nodes` runs with) already reach the loop's limit:
any extra fuel gives the same result. -/
theorem C7_loop_terminates :
    (∀ nodes ns : List Node, fill_pass nodes = some (ns, true) →
      ucount ns < ucount nodes) ∧
    (∀ (nodes : List Node) (extra : Nat),
      fill_loop (nodes.length + 1 + extra) nodes = fill_loop (nodes.length + 1) nodes) := by
  constructor
  · intro nodes ns h
    exact fill_pass_ucount_lt h
  · intro nodes extra
    have h := ucount_le_length nodes
    exact fill_loop_fuel_congr (by omega) (by omega)

/-- C7, witness. -/
theorem C7_witness :
    ucount (exAddNodes.set 2 ⟨some (3 + 4), false, [0, 1], some .addOp⟩) <
      ucount exAddNodes ∧
    fill_loop (exAddNodes.length + 1 + 5) exAddNodes =
      fill_loop (exAddNodes.length + 1) exAddNodes :=
  ⟨C7_loop_terminates.1 exAddNodes
      (exAddNodes.set 2 ⟨some (3 + 4), false, [0, 1], some .addOp⟩) rfl,
   C7_loop_terminates.2 exAddNodes 5⟩

/-- C8: when every recorded constraint has both sides existing and
resolved, `check_constraints` returns `some true` exactly when every pair
of values is equal and `some false` exactly when some pair differs (the
scan stops at the first failure); zero constraints give `some true`
vacuously. -/
theorem C8_check_correct {b : Builder}
    (hres : ∀ pq ∈ b.constraints, ∃ n1 n2 v1 v2,
      b.nodes[pq.1]? = some n1 ∧ b.nodes[pq.2]? = some n2 ∧
      n1.value = some v1 ∧ n2.value = some v2) :
    (b.check_constraints = some true ↔
      ∀ pq ∈ b.constraints, constraintPasses b.nodes pq) ∧
    (b.check_constraints = some false ↔
      ¬ ∀ pq ∈ b.constraints, constraintPasses b.nodes pq) :=
  check_go_correct hres

/-- C8, witness: two equal constants under one constraint check out. -/
theorem C8_witness : exEqPair.check_constraints = some true := by
  have hres : ∀ pq ∈ exEqPair.constraints, ∃ n1 n2 v1 v2,
      exEqPair.nodes[pq.1]? = some n1 ∧ exEqPair.nodes[pq.2]? = some n2 ∧
      n1.value = some v1 ∧ n2.value = some v2 := by
    intro pq hpq
    have hm : pq ∈ [((0 : Nat), (1 : Nat))] := hpq
    rcases List.mem_singleton.mp hm with rfl
    exact ⟨⟨some 2, false, [], none⟩, ⟨some 2, false, [], none⟩, 2, 2,
      rfl, rfl, rfl, rfl⟩
  refine (C8_check_correct hres).1.mpr ?_
  intro pq hpq
  have hm : pq ∈ [((0 : Nat), (1 : Nat))] := hpq
  rcases List.mem_singleton.mp hm with rfl
  exact ⟨⟨some 2, false, [], none⟩, ⟨some 2, false, [], none⟩, 2,
    rfl, rfl, rfl, rfl⟩

/-- C9: an `inputs` entry `Some v` at a position with no node makes
`fill_nodes` panic (index out of bounds in the input-writing prologue). -/
theorem C9_oob_input_panics {b : Builder} {inputs : List (Option Nat)} {i v : Nat}
    (hk : inputs[i]? = some (some v)) (hge : b.nodes.length ≤ i) :
    b.fill_nodes inputs = none := by
  unfold Builder.fill_nodes
  rw [set_inputs_oob hk (by omega)]

/-- C9, witness: supplying an input to an empty graph panics. -/
theorem C9_witness : Builder.new.fill_nodes [some 1] = none :=
  C9_oob_input_panics
    (rfl : ([some 1] : List (Option Nat))[0]? = some (some 1)) (by decide)

/-- C10: `assert_equal` records any pair unconditionally (touching nothing
else), and a recorded constraint with a nonexistent node id makes the
constraint scan, once it reaches that pair, panic (index out of bounds)
instead of returning a failure result. -/
theorem C10_assert_unchecked :
    (∀ (b : Builder) (a c : Nat),
      (b.assert_equal a c).constraints = b.constraints ++ [(a, c)] ∧
      (b.assert_equal a c).nodes = b.nodes) ∧
    (∀ (b : Builder) (pre rest : List (Nat × Nat)) (a c : Nat),
      b.constraints = pre ++ (a, c) :: rest →
      (∀ pq ∈ pre, constraintPasses b.nodes pq) →
      b.nodes.length ≤ a ∨ b.nodes.length ≤ c →
      b.check_constraints = none) := by
  constructor
  · intro b a c
    exact ⟨rfl, rfl⟩
  · intro b pre rest a c hcs hpre hoob
    unfold Builder.check_constraints
    rw [hcs, check_go_skip hpre]
    rcases hoob with h | h
    · have ha : b.nodes[a]? = none := List.getElem?_eq_none h
      simp only [check_constraints_go, ha]
    · cases ha : b.nodes[a]? with
      | none => simp only [check_constraints_go, ha]
      | some na =>
        have hcnone : b.nodes[c]? = none := List.getElem?_eq_none h
        simp only [check_constraints_go, ha, hcnone]

/-- C10, witness: `assert_equal 3 4` on an empty graph records the pair,
and the following `check_constraints` panics. -/
theorem C10_witness :
    ((Builder.new.assert_equal 3 4).constraints = Builder.new.constraints ++ [(3, 4)] ∧
      (Builder.new.assert_equal 3 4).nodes = Builder.new.nodes) ∧
    (Builder.new.assert_equal 3 4).check_constraints = none :=
  ⟨C10_assert_unchecked.1 Builder.new 3 4,
   C10_assert_unchecked.2 (Builder.new.assert_equal 3 4) [] [] 3 4 rfl
     (by simp) (Or.inl (by decide))⟩
